import Mathlib

/-!
Verification of the diff segmentation and filter engine of the
wcag-review-demo repository, shallowly embedded from
`src/diff_filter.py` (class `DiffFilter`) and from the size-capped
variant in `src/anthropic_code_review.py` (`AnthropicCodeReview._filter_diff`).

Python strings are modelled as `List Char` (a Python `str` is a sequence
of code points); the public entry points take and return `String`, whose
underlying data is exactly such a list.  Compiled regular expressions,
which the source obtains from the Python `re` standard library, are
modelled by a small executable regex engine covering the subset of
syntax the repository uses (literals, escapes, character classes,
anchors, alternation, repetition, grouping), with genuine unanchored
search semantics: a pattern may match starting at any position of the
searched string, exactly like `re.Pattern.search`.
-/

/-- Model of Python `re`: one element of a character class, either a single
character or an inclusive range. -/
inductive RgxItem where
  | single (c : Char)
  | range (lo hi : Char)
deriving DecidableEq

/-- Model of Python `re`: abstract syntax of the regex subset used by the
repository (`.` `^` `$` `|` `*` `+` `?` `(...)` `[...]` and escapes). -/
inductive Rgx where
  | eps
  | chr (c : Char)
  | dot
  | cls (neg : Bool) (items : List RgxItem)
  | cat (r1 r2 : Rgx)
  | alt (r1 r2 : Rgx)
  | star (r : Rgx)
  | bol
  | eol
deriving DecidableEq

/-- Whether one class item matches a character. -/
def rgxItemMatches (it : RgxItem) (c : Char) : Bool :=
  match it with
  | .single d => c = d
  | .range lo hi => lo ≤ c && c ≤ hi

/-- Whether a character class (possibly negated) matches a character. -/
def rgxClsMatches (neg : Bool) (items : List RgxItem) (c : Char) : Bool :=
  if neg then !items.any (fun it => rgxItemMatches it c)
  else items.any (fun it => rgxItemMatches it c)

/-- Size of a regex, used to choose a sufficient fuel for the matcher. -/
def rgxSize : Rgx → Nat
  | .eps => 1
  | .chr _ => 1
  | .dot => 1
  | .cls _ _ => 1
  | .cat r1 r2 => rgxSize r1 + rgxSize r2 + 1
  | .alt r1 r2 => rgxSize r1 + rgxSize r2 + 1
  | .star r => rgxSize r + 1
  | .bol => 1
  | .eol => 1

/-- Fuel-bounded backtracking matcher: `rgxRun s fuel r pos` is the list of
end positions of matches of `r` in the fixed string `s` starting at
position `pos`.  `^` matches only at position 0 and `$` only at the end of
the string; `.` does not match a newline (the `re` defaults). -/
def rgxRun (s : List Char) : Nat → Rgx → Nat → List Nat
  | 0, _, _ => []
  | _ + 1, .eps, pos => [pos]
  | _ + 1, .chr c, pos =>
      match s.drop pos with
      | [] => []
      | c0 :: _ => if c0 = c then [pos + 1] else []
  | _ + 1, .dot, pos =>
      match s.drop pos with
      | [] => []
      | c0 :: _ => if c0 = '\n' then [] else [pos + 1]
  | _ + 1, .cls neg items, pos =>
      match s.drop pos with
      | [] => []
      | c0 :: _ => if rgxClsMatches neg items c0 then [pos + 1] else []
  | fuel + 1, .cat r1 r2, pos =>
      (rgxRun s fuel r1 pos).flatMap (fun p => rgxRun s fuel r2 p)
  | fuel + 1, .alt r1 r2, pos =>
      rgxRun s fuel r1 pos ++ rgxRun s fuel r2 pos
  | fuel + 1, .star r, pos =>
      pos :: ((rgxRun s fuel r pos).filter (fun p => pos < p)).flatMap
        (fun p => rgxRun s fuel (.star r) p)
  | _ + 1, .bol, pos => if pos = 0 then [pos] else []
  | _ + 1, .eol, pos => if pos = s.length then [pos] else []

/-- Model of `re.Pattern.search`: unanchored search, trying every start
position of the string in order and succeeding as soon as a match exists
anywhere inside it. -/
def rgxSearch (r : Rgx) (s : List Char) : Bool :=
  (List.range (s.length + 1)).any
    (fun pos => !(rgxRun s ((s.length + 2) * (rgxSize r + 1)) r pos).isEmpty)

/-- Translation of a top-level escape `\c` into a regex; class shorthands
`\d` `\w` `\s` expand to classes, unknown alphanumeric escapes are rejected
as `re.compile` rejects them, punctuation escapes are literal. -/
def rgxEscChar (c : Char) : Except String Rgx :=
  if c = 'd' then .ok (.cls false [.range '0' '9'])
  else if c = 'w' then
    .ok (.cls false [.range 'a' 'z', .range 'A' 'Z', .range '0' '9', .single '_'])
  else if c = 's' then
    .ok (.cls false [.single ' ', .single '\t', .single '\n', .single '\r',
      .single '\x0b', .single '\x0c'])
  else if c.isAlpha || c.isDigit then .error "bad escape"
  else .ok (.chr c)

/-- Character-class body: consumes items up to the closing bracket and
fails on an unterminated class or a reversed range, like `re.compile`. -/
def rgxClsItems : List Char → Except String (List RgxItem × List Char)
  | [] => .error "unterminated character set"
  | ']' :: rest => .ok ([], rest)
  | '\\' :: [] => .error "bad escape"
  | '\\' :: c :: rest =>
      match rgxClsItems rest with
      | .error e => .error e
      | .ok (items, r) => .ok (.single c :: items, r)
  | c :: '-' :: ']' :: rest => .ok ([.single c, .single '-'], rest)
  | c :: '-' :: d :: rest =>
      if c ≤ d then
        match rgxClsItems rest with
        | .error e => .error e
        | .ok (items, r) => .ok (.range c d :: items, r)
      else .error "bad character range"
  | c :: rest =>
      match rgxClsItems rest with
      | .error e => .error e
      | .ok (items, r) => .ok (.single c :: items, r)

/-- Parsing mode of the recursive-descent pattern grammar: alternation
level, concatenation level (with the regex accumulated so far), or a
single repeatable atom. -/
inductive PM where
  | palt
  | pseq (acc : Rgx)
  | patom

/-- Recursive-descent pattern grammar, bounded by fuel (always sufficient
for the initial fuel chosen by `rgxCompile`).  Alternation level splits on
`|`; concatenation level folds repeated atoms and stops at `|`, `)` or the
end; atom level handles groups, classes, anchors, escapes, the wildcard
and literals, and rejects a repetition operator with nothing to repeat,
like `re.compile`. -/
def rgxParse : Nat → PM → List Char → Except String (Rgx × List Char)
  | 0, _, _ => .error "pattern too deeply nested"
  | fuel + 1, .palt, s =>
      match rgxParse fuel (.pseq .eps) s with
      | .error e => .error e
      | .ok (r, rest) =>
          match rest with
          | '|' :: rest2 =>
              match rgxParse fuel .palt rest2 with
              | .error e => .error e
              | .ok (r2, rest3) => .ok (.alt r r2, rest3)
          | _ => .ok (r, rest)
  | fuel + 1, .pseq acc, s =>
      match s with
      | [] => .ok (acc, [])
      | ')' :: rest => .ok (acc, ')' :: rest)
      | '|' :: rest => .ok (acc, '|' :: rest)
      | _ =>
          match rgxParse fuel .patom s with
          | .error e => .error e
          | .ok (a, rest) =>
              match rest with
              | '*' :: rest2 => rgxParse fuel (.pseq (.cat acc (.star a))) rest2
              | '+' :: rest2 => rgxParse fuel (.pseq (.cat acc (.cat a (.star a)))) rest2
              | '?' :: rest2 => rgxParse fuel (.pseq (.cat acc (.alt a .eps))) rest2
              | _ => rgxParse fuel (.pseq (.cat acc a)) rest
  | fuel + 1, .patom, s =>
      match s with
      | [] => .error "unexpected end of pattern"
      | '(' :: rest =>
          match rgxParse fuel .palt rest with
          | .error e => .error e
          | .ok (r, rest2) =>
              match rest2 with
              | ')' :: rest3 => .ok (r, rest3)
              | _ => .error "missing closing parenthesis"
      | '[' :: '^' :: rest =>
          match rgxClsItems rest with
          | .error e => .error e
          | .ok (items, r) => .ok (.cls true items, r)
      | '[' :: rest =>
          match rgxClsItems rest with
          | .error e => .error e
          | .ok (items, r) => .ok (.cls false items, r)
      | '*' :: _ => .error "nothing to repeat"
      | '+' :: _ => .error "nothing to repeat"
      | '?' :: _ => .error "nothing to repeat"
      | '.' :: rest => .ok (.dot, rest)
      | '^' :: rest => .ok (.bol, rest)
      | '$' :: rest => .ok (.eol, rest)
      | '\\' :: [] => .error "bad escape at end of pattern"
      | '\\' :: c :: rest =>
          match rgxEscChar c with
          | .error e => .error e
          | .ok r => .ok (r, rest)
      | c :: rest => .ok (.chr c, rest)

/-- Model of `re.compile`: parses a pattern string into a regex value, or
fails with an error for a syntactically invalid pattern (unterminated
class, unbalanced parenthesis, dangling repetition, bad escape). -/
def rgxCompile (pat : String) : Except String Rgx :=
  match rgxParse (2 * pat.data.length + 10) PM.palt pat.data with
  | .error e => .error e
  | .ok (r, rest) =>
      match rest with
      | [] => .ok r
      | _ => .error "unbalanced parenthesis"

/-! Section: Line-level string utilities

`diff.split("\n")` and `"\n".join(lines)` from the source are embedded as
explicit recursions over character lists, which is what Python string
splitting and joining compute. -/

/-- Model of Python `diff.split("\n")`: split a character list at every
newline; the empty string yields one empty line, like `"".split("\n")`. -/
def splitNl : List Char → List (List Char)
  | [] => [[]]
  | c :: rest =>
      if c = '\n' then [] :: splitNl rest
      else
        match splitNl rest with
        | [] => [[c]]
        | l :: ls => (c :: l) :: ls

/-- Model of Python `"\n".join(lines)`. -/
def joinNl : List (List Char) → List Char
  | [] => []
  | [l] => l
  | l :: ls => l ++ '\n' :: joinNl ls

/-- Model of Python `"\n\n".join(blocks)`, the segment-joining convention
of `DiffFilter.filter_diff`. -/
def joinNl2 : List (List Char) → List Char
  | [] => []
  | [l] => l
  | l :: ls => l ++ '\n' :: '\n' :: joinNl2 ls

/-- Whitespace characters removed by Python `str.strip()` (ASCII part). -/
def pySpace (c : Char) : Bool :=
  c = ' ' || c = '\t' || c = '\n' || c = '\r' || c = '\x0b' || c = '\x0c'

/-- Model of Python `str.strip()`. -/
def pyStrip (s : List Char) : List Char :=
  ((s.dropWhile pySpace).reverse.dropWhile pySpace).reverse

/-! Section: The DiffFilter engine, from `src/diff_filter.py` -/

/-- The literal 6-character prefix `--- a/` that starts a new file segment
in `DiffFilter._parse_diff_by_files`. -/
def trigPrefix : List Char := ['-', '-', '-', ' ', 'a', '/']

/-- Model of `line.startswith("--- a/")`. -/
def isTrig (l : List Char) : Bool := trigPrefix.isPrefixOf l

/-- One parsed per-file record, the dictionary built by
`DiffFilter._parse_diff_by_files` (its `content` is the `"\n"`-join of the
collected lines; the raw line list is kept alongside it). -/
structure FileSegment where
  filename : List Char
  lines : List (List Char)
  content : List Char
  additions : Nat
  deletions : Nat
deriving DecidableEq, Inhabited, Repr

/-- Model of `DiffFilter._count_additions`: lines starting with `+` but
not with `+++`. -/
def count_additions (lines : List (List Char)) : Nat :=
  lines.countP (fun l => ['+'].isPrefixOf l && !(['+', '+', '+'].isPrefixOf l))

/-- Model of `DiffFilter._count_deletions`: lines starting with `-` but
not with `---`. -/
def count_deletions (lines : List (List Char)) : Nat :=
  lines.countP (fun l => ['-'].isPrefixOf l && !(['-', '-', '-'].isPrefixOf l))

/-- The record appended by `_parse_diff_by_files` when a segment closes. -/
def mkSegment (f : List Char) (cc : List (List Char)) : FileSegment :=
  { filename := f, lines := cc, content := joinNl cc,
    additions := count_additions cc, deletions := count_deletions cc }

/-- The line-walking loop of `DiffFilter._parse_diff_by_files`.  The state
is the current filename (`None` before the first header; note that Python
truthiness makes an empty filename behave like no filename), the collected
lines of the open segment, and the list of closed segments.  A segment is
closed only when both the current filename and the collected lines are
truthy, and the collected lines are reset only in that case, exactly as in
the source. -/
def parseLines : List (List Char) → Option (List Char) → List (List Char) →
    List FileSegment → List FileSegment
  | [], cf, cc, acc =>
      match cf with
      | some f => if !f.isEmpty && !cc.isEmpty then acc ++ [mkSegment f cc] else acc
      | none => acc
  | line :: rest, cf, cc, acc =>
      if isTrig line then
        match cf with
        | some f =>
            if !f.isEmpty && !cc.isEmpty then
              parseLines rest (some (line.drop 6)) [line] (acc ++ [mkSegment f cc])
            else
              parseLines rest (some (line.drop 6)) (cc ++ [line]) acc
        | none => parseLines rest (some (line.drop 6)) (cc ++ [line]) acc
      else
        match cf with
        | some f =>
            if !f.isEmpty then parseLines rest cf (cc ++ [line]) acc
            else parseLines rest cf cc acc
        | none => parseLines rest cf cc acc

/-- Model of `DiffFilter._parse_diff_by_files`. -/
def parse_diff_by_files (diff : String) : List FileSegment :=
  parseLines (splitNl diff.data) none [] []

/-- The `DiffFilter` configuration after construction: compiled patterns
and the two numeric bounds. -/
structure DiffFilter where
  include_patterns : List Rgx
  exclude_patterns : List Rgx
  min_line_changes : Int
  max_line_changes : Option Int
deriving DecidableEq

/-- Model of `DiffFilter._should_include_file_diff`: exclusion first, then
inclusion, then the minimum bound, then the maximum bound. -/
def DiffFilter.should_include_file_diff (self : DiffFilter) (fd : FileSegment) : Bool :=
  let filename := fd.filename
  let total_changes : Int := (fd.additions : Int) + (fd.deletions : Int)
  if self.exclude_patterns.any (fun p => rgxSearch p filename) then false
  else if !self.include_patterns.isEmpty &&
      !self.include_patterns.any (fun p => rgxSearch p filename) then false
  else if total_changes < self.min_line_changes then false
  else
    match self.max_line_changes with
    | some m => decide (total_changes ≤ m)
    | none => true

/-- Model of `DiffFilter.filter_diff`: empty or whitespace-only input
returns the empty string; otherwise the retained segments' contents are
joined with a blank line of separation (`"\n\n".join`). -/
def DiffFilter.filter_diff (self : DiffFilter) (diff : String) : String :=
  if pyStrip diff.data = [] then ""
  else
    let file_diffs := parse_diff_by_files diff
    let filtered_diffs :=
      (file_diffs.filter (fun fd => self.should_include_file_diff fd)).map
        (fun fd => fd.content)
    String.mk (joinNl2 filtered_diffs)

/-- The summary dictionary returned by `DiffFilter.get_summary`. -/
structure DiffSummary where
  files_changed : Nat
  additions : Nat
  deletions : Nat
  total_changes : Nat
deriving DecidableEq, Repr

/-- Model of `DiffFilter.get_summary`: pure aggregation over all parsed
segments; the configuration is not consulted. -/
def DiffFilter.get_summary (_self : DiffFilter) (diff : String) : DiffSummary :=
  let file_diffs := parse_diff_by_files diff
  let total_additions := (file_diffs.map (fun f => f.additions)).sum
  let total_deletions := (file_diffs.map (fun f => f.deletions)).sum
  { files_changed := file_diffs.length, additions := total_additions,
    deletions := total_deletions,
    total_changes := total_additions + total_deletions }

/-- Model of the list comprehension `[re.compile(p) for p in patterns]`:
compile each pattern in order, failing at the first invalid one. -/
def compileAll : List String → Except String (List Rgx)
  | [] => .ok []
  | p :: ps =>
      match rgxCompile p with
      | .error e => .error e
      | .ok r =>
          match compileAll ps with
          | .error e => .error e
          | .ok rs => .ok (r :: rs)

/-- Model of `DiffFilter.__init__`: compiles both pattern lists (an
invalid pattern makes construction fail) and clamps a negative
`min_line_changes` to 0 via `max(0, min_line_changes)`.  A `None` pattern
list in Python becomes `[]` before compilation, so it is represented here
by the empty list. -/
def mkDiffFilter (include_patterns exclude_patterns : List String)
    (min_line_changes : Int) (max_line_changes : Option Int) :
    Except String DiffFilter :=
  match compileAll include_patterns with
  | .error e => .error e
  | .ok inc =>
      match compileAll exclude_patterns with
      | .error e => .error e
      | .ok exc =>
          .ok { include_patterns := inc, exclude_patterns := exc,
                min_line_changes := max 0 min_line_changes,
                max_line_changes := max_line_changes }

/-! Section: The size-capped filter of `AnthropicCodeReview._filter_diff`

This is the variant the specification's `maxTotalSize` describes: the
method reads the cap from the attribute `MAX_DIFF_SIZE` (50000 in the
class body), so the cap is a parameter of the embedding. -/

/-- Model of `line.startswith(("--- a/", "+++ b/"))`. -/
def acrTrig (l : List Char) : Bool :=
  trigPrefix.isPrefixOf l || ['+', '+', '+', ' ', 'b', '/'].isPrefixOf l

/-- The line-walking loop of `AnthropicCodeReview._filter_diff`: on each
file header the previous file's lines are kept unless its filename matched
an exclude pattern; lines before the first header are dropped. -/
def acrWalk (excl : List Rgx) : List (List Char) → Option (List Char) →
    List (List Char) → Bool → List (List Char) → List (List Char)
  | [], cf, cfl, skip, acc =>
      match cf with
      | some _ => if !skip then acc ++ cfl else acc
      | none => acc
  | line :: rest, cf, cfl, skip, acc =>
      if acrTrig line then
        let acc2 :=
          match cf with
          | some _ => if !skip then acc ++ cfl else acc
          | none => acc
        let fn := line.drop 6
        acrWalk excl rest (some fn) [line] (excl.any (fun p => rgxSearch p fn)) acc2
      else
        if !cfl.isEmpty then acrWalk excl rest cf (cfl ++ [line]) skip acc
        else acrWalk excl rest cf cfl skip acc

/-- The concatenation `"\n".join(filtered_lines)` computed by
`AnthropicCodeReview._filter_diff` before the size check. -/
def acrConcat (excl : List Rgx) (diff : String) : List Char :=
  joinNl (acrWalk excl (splitNl diff.data) none [] false [])

/-- Model of `AnthropicCodeReview._filter_diff` including the final size
check: when the concatenation exceeds `maxDiffSize` characters it is hard
cut to exactly `maxDiffSize` characters (`filtered_diff[:MAX_DIFF_SIZE]`),
with only a logged warning, never an exception. -/
def acrFilterDiff (excl : List Rgx) (maxDiffSize : Nat) (diff : String) : String :=
  let filtered_diff := acrConcat excl diff
  if maxDiffSize < filtered_diff.length then String.mk (filtered_diff.take maxDiffSize)
  else String.mk filtered_diff

/-! Section: Basic facts and the easier claims -/

/-- A default configuration: no patterns, no bounds. -/
def dfDefault : DiffFilter := ⟨[], [], 0, none⟩

/-- Join a list of line blocks with one blank line between consecutive
blocks: the line-level description of the blank-line joining
convention. -/
def blankSep : List (List (List Char)) → List (List Char)
  | [] => []
  | [b] => b
  | b :: bs => b ++ [] :: blankSep bs

/-- Modelled from the spec (the description behind claim C4), processing
the lines right to left: `segSpecAux ls` returns the block of lines of
`ls` that precede its first `--- a/` trigger line, together with the
described segments of `ls`: one per trigger line, each holding the
trigger line itself and the following lines up to (not including) the
next trigger, its filename being everything after the 6-character
prefix. -/
def segSpecAux : List (List Char) → List (List Char) × List (List Char × List (List Char))
  | [] => ([], [])
  | l :: rest =>
      let (pre, segs) := segSpecAux rest
      if isTrig l then ([], (l.drop 6, l :: pre) :: segs)
      else (l :: pre, segs)

/-- Modelled from the spec (the description behind claim C4): the
segmentation described by the specification — one segment per `--- a/`
trigger line, in input order, and lines before the first trigger
discarded. -/
def segmentSpec (ls : List (List Char)) : List (List Char × List (List Char)) :=
  (segSpecAux ls).2

/-- Structural shape of every segment produced by the parser: possibly
some stray bare `--- a/` lines (the empty-path leak), then the real
trigger line whose path is the filename, then non-trigger body lines; the
content and the counts are determined by the lines, and no line contains
a newline. -/
def SegWF (s : FileSegment) : Prop :=
  ∃ junk trig body,
    s.lines = junk ++ trig :: body ∧
    (∀ j ∈ junk, j = trigPrefix) ∧
    isTrig trig = true ∧
    trig.drop 6 = s.filename ∧
    s.filename ≠ [] ∧
    (∀ b ∈ body, isTrig b = false) ∧
    s.content = joinNl s.lines ∧
    s.additions = count_additions s.lines ∧
    s.deletions = count_deletions s.lines ∧
    (∀ l ∈ s.lines, '\n' ∉ l)

/-- A concrete parsed segment used to instantiate the per-segment count
characterization. -/
def segWitness : FileSegment :=
  (parse_diff_by_files "--- a/f.py\n+x\n-y\n+z").headI

/-- Invariant of the parser state, pairing the current filename with the
collected lines: before any header nothing is collected; after a bare
empty-path header only stray `--- a/` lines are collected (they are never
emitted but leak into the next segment); after a real header the
collected lines are stray junk, then the trigger line, then non-trigger
body lines. -/
def StWF : Option (List Char) → List (List Char) → Prop
  | none, cc => cc = []
  | some f, cc =>
      if f = [] then cc ≠ [] ∧ (∀ j ∈ cc, j = trigPrefix)
      else ∃ junk trig body, cc = junk ++ trig :: body ∧
        (∀ j ∈ junk, j = trigPrefix) ∧ isTrig trig = true ∧ trig.drop 6 = f ∧
        (∀ b ∈ body, isTrig b = false) ∧ (∀ l ∈ cc, '\n' ∉ l)

/-- Claim C1: for every diff text and every configuration whose size cap
(`maxTotalSize`, the `MAX_DIFF_SIZE` attribute read by
`AnthropicCodeReview._filter_diff`) is `K`, if the concatenation of the
retained segments is longer than `K` then the filter returns exactly the
first `K` characters of that concatenation — a hard cut, possibly
mid-line — and, the embedding being a total function, no exception is
raised. -/
theorem acr_size_cap_exact (excl : List Rgx) (K : Nat) (diff : String)
    (h : K < (acrConcat excl diff).length) :
    (acrFilterDiff excl K diff).length = K ∧
    acrFilterDiff excl K diff = String.mk ((acrConcat excl diff).take K) := by
  have hbody : acrFilterDiff excl K diff = String.mk ((acrConcat excl diff).take K) := by
    show (if K < (acrConcat excl diff).length then String.mk ((acrConcat excl diff).take K)
      else String.mk (acrConcat excl diff)) = String.mk ((acrConcat excl diff).take K)
    rw [if_pos h]
  refine ⟨?_, hbody⟩
  rw [hbody]
  show ((acrConcat excl diff).take K).length = K
  rw [List.length_take]
  omega

/-- Witness for C1 at a concrete oversized input. -/
theorem acr_size_cap_exact_witness :
    (acrFilterDiff [] 5 "--- a/xyz").length = 5 :=
  (acr_size_cap_exact [] 5 "--- a/xyz" (by decide)).1

/-- Claim C3: the retention decision returns true exactly when the
filename matches no exclude pattern, the include list is empty or some
include pattern matches, the total change count reaches the minimum, and
the maximum, when set, is not exceeded.  A filename matching both an
include and an exclude pattern is therefore dropped.  Matching is
`rgxSearch`, which is unanchored search (a match may start at any
position of the filename). -/
theorem retention_rule (f : DiffFilter) (fd : FileSegment) :
    f.should_include_file_diff fd = true ↔
      ((∀ p ∈ f.exclude_patterns, rgxSearch p fd.filename = false) ∧
       (f.include_patterns = [] ∨
         ∃ p ∈ f.include_patterns, rgxSearch p fd.filename = true) ∧
       f.min_line_changes ≤ (fd.additions : Int) + (fd.deletions : Int) ∧
       (∀ m ∈ f.max_line_changes, (fd.additions : Int) + (fd.deletions : Int) ≤ m)) := by
  simp only [DiffFilter.should_include_file_diff]
  by_cases hexc : (f.exclude_patterns.any fun p => rgxSearch p fd.filename) = true
  · rw [if_pos hexc]
    simp only [Bool.false_eq_true, false_iff]
    rintro ⟨hno, -, -, -⟩
    obtain ⟨p, hp, hps⟩ := List.any_eq_true.mp hexc
    rw [hno p hp] at hps
    cases hps
  · rw [if_neg hexc]
    have hexc2 : ∀ p ∈ f.exclude_patterns, rgxSearch p fd.filename = false := by
      intro p hp
      cases hb : rgxSearch p fd.filename
      · rfl
      · exfalso
        apply hexc
        rw [List.any_eq_true]
        exact ⟨p, hp, hb⟩
    by_cases hinc : (!f.include_patterns.isEmpty &&
        !f.include_patterns.any fun p => rgxSearch p fd.filename) = true
    · rw [if_pos hinc]
      simp only [Bool.false_eq_true, false_iff]
      rintro ⟨-, hor, -, -⟩
      rw [Bool.and_eq_true, Bool.not_eq_true', Bool.not_eq_true'] at hinc
      obtain ⟨hne, hnone⟩ := hinc
      rcases hor with hnil | ⟨p, hp, hps⟩
      · rw [hnil] at hne
        simp at hne
      · have hany : (f.include_patterns.any fun q => rgxSearch q fd.filename) = true := by
          rw [List.any_eq_true]
          exact ⟨p, hp, hps⟩
        rw [hnone] at hany
        cases hany
    · rw [if_neg hinc]
      have hincp : f.include_patterns = [] ∨
          ∃ p ∈ f.include_patterns, rgxSearch p fd.filename = true := by
        cases hni : f.include_patterns.isEmpty
        · right
          cases hna : f.include_patterns.any fun p => rgxSearch p fd.filename
          · exact absurd (by rw [hni, hna]; rfl) hinc
          · exact List.any_eq_true.mp hna
        · exact Or.inl (List.isEmpty_iff.mp hni)
      by_cases hmin : (fd.additions : Int) + (fd.deletions : Int) < f.min_line_changes
      · rw [if_pos hmin]
        simp only [Bool.false_eq_true, false_iff]
        rintro ⟨-, -, hle, -⟩
        omega
      · rw [if_neg hmin]
        rw [not_lt] at hmin
        cases hmx : f.max_line_changes with
        | none =>
            simp only [show (true = true) = True from by simp, true_iff]
            refine ⟨hexc2, hincp, hmin, ?_⟩
            intro m hm
            rw [Option.mem_def] at hm
            cases hm
        | some m =>
            simp only [decide_eq_true_eq]
            constructor
            · intro hle
              refine ⟨hexc2, hincp, hmin, ?_⟩
              intro m2 hm2
              rw [Option.mem_def] at hm2
              cases hm2
              exact hle
            · rintro ⟨-, -, -, hmax⟩
              exact hmax m rfl

/-- Witness for C3 instantiating the retention rule at a concrete
segment and configuration. -/
theorem retention_rule_witness :
    dfDefault.should_include_file_diff segWitness = true :=
  (retention_rule dfDefault segWitness).mpr
    ⟨by intro p hp; simp [dfDefault] at hp, Or.inl rfl, by decide,
     by intro m hm; simp [dfDefault] at hm⟩

/-- Claim C7: the summary counts every parsed segment (`files_changed`),
sums the per-segment additions and deletions, reports their sum as
`total_changes`, and consults no part of the configuration. -/
theorem summary_pure_aggregation (f g : DiffFilter) (d : String) :
    f.get_summary d = g.get_summary d ∧
    (f.get_summary d).files_changed = (parse_diff_by_files d).length ∧
    (f.get_summary d).additions = ((parse_diff_by_files d).map (fun s => s.additions)).sum ∧
    (f.get_summary d).deletions = ((parse_diff_by_files d).map (fun s => s.deletions)).sum ∧
    (f.get_summary d).total_changes = (f.get_summary d).additions + (f.get_summary d).deletions :=
  ⟨rfl, rfl, rfl, rfl, rfl⟩

/-- Claim C8: on every string input, well-formed or not, both entry
points return a result.  The embedding of `filter_diff` and `get_summary`
is a pair of total functions with no error channel (the translation of
the source introduces no failing operation after construction);
mis-parsed input yields at worst an empty or mis-segmented result: when
segmentation finds nothing, filtering returns the empty string and the
summary is all zeros, and otherwise the results are the stated pure
values. -/
theorem engine_never_fails (f : DiffFilter) (d : String) :
    (parse_diff_by_files d = [] →
      f.filter_diff d = "" ∧ f.get_summary d = ⟨0, 0, 0, 0⟩) ∧
    (f.filter_diff d = "" ∨
      f.filter_diff d = String.mk (joinNl2 (((parse_diff_by_files d).filter
        (fun s => f.should_include_file_diff s)).map (fun s => s.content)))) ∧
    (f.get_summary d).total_changes =
      (f.get_summary d).additions + (f.get_summary d).deletions := by
  refine ⟨?_, ?_, rfl⟩
  · intro h
    constructor
    · show (if pyStrip d.data = [] then "" else String.mk (joinNl2
        (((parse_diff_by_files d).filter (fun fd => f.should_include_file_diff fd)).map
          (fun fd => fd.content)))) = ""
      rw [h]
      split <;> rfl
    · show DiffSummary.mk (parse_diff_by_files d).length _ _ _ = _
      rw [h]
      rfl
  · by_cases hstrip : pyStrip d.data = []
    · left
      show (if pyStrip d.data = [] then "" else String.mk (joinNl2
        (((parse_diff_by_files d).filter (fun fd => f.should_include_file_diff fd)).map
          (fun fd => fd.content)))) = ""
      rw [if_pos hstrip]
    · right
      show (if pyStrip d.data = [] then "" else String.mk (joinNl2
        (((parse_diff_by_files d).filter (fun fd => f.should_include_file_diff fd)).map
          (fun fd => fd.content)))) = _
      rw [if_neg hstrip]

/-- Witness for C8 on a malformed, non-diff input. -/
theorem engine_never_fails_witness :
    dfDefault.filter_diff "not a diff at all" = "" ∧
    dfDefault.get_summary "not a diff at all" = ⟨0, 0, 0, 0⟩ :=
  (engine_never_fails dfDefault "not a diff at all").1 (by decide)

/-- If any pattern in the list fails to compile, the whole comprehension
fails. -/
theorem compileAll_error_of_mem (ps : List String) (p : String) (hp : p ∈ ps)
    (e : String) (he : rgxCompile p = .error e) :
    ∃ e2, compileAll ps = .error e2 := by
  induction ps with
  | nil => cases hp
  | cons q t ih =>
      cases hq : rgxCompile q with
      | error e1 => exact ⟨e1, by simp [compileAll, hq]⟩
      | ok r =>
          rcases List.mem_cons.mp hp with rfl | hpt
          · rw [hq] at he
            cases he
          · obtain ⟨e2, h2⟩ := ih hpt
            exact ⟨e2, by simp [compileAll, hq, h2]⟩

/-- Claim C9: a syntactically invalid pattern in either list makes the
constructor fail with an invalid-pattern error, and a successfully
constructed filter holds exactly the patterns compiled once by the
constructor (so `filter_diff`, whose embedding is a total function over
the already-compiled `DiffFilter`, never compiles a pattern again). -/
theorem invalid_pattern_fails_fast (inc exc : List String) (mn : Int) (mx : Option Int) :
    ((∃ p ∈ inc ++ exc, ∃ e, rgxCompile p = Except.error e) →
      ∃ e, mkDiffFilter inc exc mn mx = Except.error e) ∧
    (∀ f, mkDiffFilter inc exc mn mx = Except.ok f →
      compileAll inc = Except.ok f.include_patterns ∧
      compileAll exc = Except.ok f.exclude_patterns) := by
  constructor
  · rintro ⟨p, hp, e, he⟩
    rcases List.mem_append.mp hp with hpi | hpe
    · obtain ⟨e2, h2⟩ := compileAll_error_of_mem inc p hpi e he
      exact ⟨e2, by simp [mkDiffFilter, h2]⟩
    · cases hci : compileAll inc with
      | error e1 => exact ⟨e1, by simp [mkDiffFilter, hci]⟩
      | ok a =>
          obtain ⟨e2, h2⟩ := compileAll_error_of_mem exc p hpe e he
          exact ⟨e2, by simp [mkDiffFilter, hci, h2]⟩
  · intro f hf
    cases hci : compileAll inc with
    | error e1 => simp [mkDiffFilter, hci] at hf
    | ok a =>
        cases hce : compileAll exc with
        | error e2 => simp [mkDiffFilter, hci, hce] at hf
        | ok b =>
            simp only [mkDiffFilter, hci, hce, Except.ok.injEq] at hf
            subst hf
            exact ⟨rfl, rfl⟩

/-- Witness for C9: an unterminated character class is rejected at
construction time. -/
theorem invalid_pattern_fails_fast_witness :
    ∃ e, mkDiffFilter ["["] [] 0 none = Except.error e :=
  (invalid_pattern_fails_fast ["["] [] 0 none).1
    ⟨"[", by decide, "unterminated character set", by rfl⟩

/-- Claim C10: the constructor clamps a negative `min_line_changes` to 0
(`max(0, min_line_changes)`), so construction with a negative minimum is
literally equal to construction with 0, and every successfully
constructed filter satisfies the invariant `0 ≤ min_line_changes`; being
a plain immutable value, the configuration is never changed by any later
operation. -/
theorem negative_min_clamped (inc exc : List String) (m : Int) (mx : Option Int) :
    (m < 0 → mkDiffFilter inc exc m mx = mkDiffFilter inc exc 0 mx) ∧
    (∀ f, mkDiffFilter inc exc m mx = Except.ok f →
      0 ≤ f.min_line_changes ∧ f.min_line_changes = max 0 m) := by
  constructor
  · intro hm
    have hmax : max 0 m = max 0 (0 : Int) := by
      rw [max_eq_left (le_of_lt hm), max_self]
    simp only [mkDiffFilter, hmax]
  · intro f hf
    cases hci : compileAll inc with
    | error e1 => simp [mkDiffFilter, hci] at hf
    | ok a =>
        cases hce : compileAll exc with
        | error e2 => simp [mkDiffFilter, hci, hce] at hf
        | ok b =>
            simp only [mkDiffFilter, hci, hce, Except.ok.injEq] at hf
            subst hf
            exact ⟨le_max_left 0 m, rfl⟩

/-- Witness for C10 at a concrete negative minimum. -/
theorem negative_min_clamped_witness :
    mkDiffFilter [] [] (-3) none = mkDiffFilter [] [] 0 none :=
  (negative_min_clamped [] [] (-3) none).1 (by decide)

/-- Counterexample to claim C2 as stated: with the default configuration
(which retains both segments) filtering twice differs from filtering
once — the second pass appends the separating blank line to the first
segment's content, so blank lines accumulate. -/
theorem refilter_counterexample :
    dfDefault.filter_diff (dfDefault.filter_diff "--- a/f\n+x\n--- a/g\n+y") ≠
      dfDefault.filter_diff "--- a/f\n+x\n--- a/g\n+y" := by decide

/-- Counterexample to claim C4 as stated: a line that is exactly
`--- a/` (empty path) begins with the 6-character trigger prefix but
produces no segment at all, so the segment count can differ from the
trigger-line count. -/
theorem segmentation_counterexample :
    parse_diff_by_files "--- a/" = [] ∧
    ((splitNl ("--- a/").data).countP (fun l => isTrig l)) = 1 := by decide

/-- Counterexample to claim C6 as stated: the input below starts with a
`--- a/` header line (with empty path), the default configuration retains
every parsed segment, yet the output is not lines-equal to the input —
the line `+x` after the empty-path header is silently dropped. -/
theorem reconstruction_counterexample :
    isTrig ((splitNl ("--- a/\n+x\n--- a/f\n+y").data).headI) = true ∧
    (parse_diff_by_files "--- a/\n+x\n--- a/f\n+y").all
      (fun s => dfDefault.should_include_file_diff s) = true ∧
    splitNl ((dfDefault.filter_diff "--- a/\n+x\n--- a/f\n+y").data) ≠
      splitNl ("--- a/\n+x\n--- a/f\n+y").data := by decide

/-! Section: Lemmas about line splitting and joining -/

/-- Splitting never yields the empty list of lines. -/
theorem splitNl_ne_nil (s : List Char) : splitNl s ≠ [] := by
  cases s with
  | nil => simp [splitNl]
  | cons c rest =>
      simp only [splitNl]
      split
      · simp
      · split
        · simp
        · simp

/-- Characterization of splitting a nonempty character list. -/
theorem splitNl_cons_eq (c : Char) (rest : List Char) :
    splitNl (c :: rest) = if c = '\n' then [] :: splitNl rest
      else (c :: (splitNl rest).headI) :: (splitNl rest).tail := by
  simp only [splitNl]
  split
  · rfl
  · cases hsp : splitNl rest with
    | nil => exact absurd hsp (splitNl_ne_nil rest)
    | cons m ms => simp

/-- Lines produced by splitting contain no newline. -/
theorem mem_splitNl_no_nl (s : List Char) : ∀ l ∈ splitNl s, '\n' ∉ l := by
  induction s with
  | nil =>
      intro l hl
      simp [splitNl] at hl
      subst hl
      simp
  | cons c rest ih =>
      intro l hl
      rw [splitNl_cons_eq] at hl
      by_cases hc : c = '\n'
      · rw [if_pos hc] at hl
        rcases List.mem_cons.mp hl with rfl | h2
        · simp
        · exact ih l h2
      · rw [if_neg hc] at hl
        cases hsp : splitNl rest with
        | nil => exact absurd hsp (splitNl_ne_nil rest)
        | cons m ms =>
            rw [hsp] at hl
            simp only [List.headI, List.tail_cons] at hl
            rcases List.mem_cons.mp hl with rfl | h2
            · intro hmem
              rcases List.mem_cons.mp hmem with h3 | h3
              · exact hc h3.symm
              · exact ih m (by rw [hsp]; exact List.mem_cons_self m ms) h3
            · exact ih l (by rw [hsp]; exact List.mem_cons.mpr (Or.inr h2))

/-- A newline-free character list splits into itself alone. -/
theorem splitNl_no_nl (l : List Char) (h : '\n' ∉ l) : splitNl l = [l] := by
  induction l with
  | nil => rfl
  | cons c rest ih =>
      have hc : ¬ c = '\n' := fun e => h (by rw [e]; exact List.mem_cons_self '\n' rest)
      rw [splitNl_cons_eq, if_neg hc, ih (fun hm => h (List.mem_cons.mpr (Or.inr hm)))]
      simp

/-- Splitting after a newline-free prefix followed by a newline. -/
theorem splitNl_append_nl (l s : List Char) (h : '\n' ∉ l) :
    splitNl (l ++ '\n' :: s) = l :: splitNl s := by
  induction l with
  | nil =>
      show splitNl ('\n' :: s) = [] :: splitNl s
      rw [splitNl_cons_eq, if_pos rfl]
  | cons c rest ih =>
      have hc : ¬ c = '\n' := fun e => h (by rw [e]; exact List.mem_cons_self '\n' rest)
      rw [List.cons_append, splitNl_cons_eq, if_neg hc,
        ih (fun hm => h (List.mem_cons.mpr (Or.inr hm)))]
      simp

/-- Joining a nonempty tail prepends the head block and a newline. -/
theorem joinNl_cons_ne (l : List Char) (ls : List (List Char)) (h : ls ≠ []) :
    joinNl (l :: ls) = l ++ '\n' :: joinNl ls := by
  cases ls with
  | nil => cases h rfl
  | cons m t => rfl

/-- Splitting is a retraction of joining on newline-free lines. -/
theorem splitNl_joinNl (ls : List (List Char)) (h0 : ls ≠ [])
    (h : ∀ l ∈ ls, '\n' ∉ l) : splitNl (joinNl ls) = ls := by
  induction ls with
  | nil => cases h0 rfl
  | cons l rest ih =>
      cases rest with
      | nil => exact splitNl_no_nl l (h l (by simp))
      | cons m t =>
          rw [joinNl_cons_ne l (m :: t) (by simp)]
          rw [splitNl_append_nl _ _ (h l (by simp))]
          rw [ih (by simp) (fun x hx => h x (List.mem_cons.mpr (Or.inr hx)))]

/-- Joining is a retraction of splitting. -/
theorem joinNl_splitNl (s : List Char) : joinNl (splitNl s) = s := by
  induction s with
  | nil => rfl
  | cons c rest ih =>
      rw [splitNl_cons_eq]
      by_cases hc : c = '\n'
      · rw [if_pos hc]
        subst hc
        cases hsp : splitNl rest with
        | nil => exact absurd hsp (splitNl_ne_nil rest)
        | cons m ms =>
            rw [joinNl_cons_ne [] (m :: ms) (by simp), ← hsp, ih]
            rfl
      · rw [if_neg hc]
        cases hsp : splitNl rest with
        | nil => exact absurd hsp (splitNl_ne_nil rest)
        | cons m ms =>
            show joinNl ((c :: m) :: ms) = c :: rest
            have hstep : joinNl ((c :: m) :: ms) = c :: joinNl (m :: ms) := by
              cases ms with
              | nil => rfl
              | cons x t => rfl
            rw [hstep, ← hsp, ih]

/-- A character of a member line is a character of the join. -/
theorem mem_joinNl (ls : List (List Char)) (l : List Char) (c : Char)
    (hl : l ∈ ls) (hc : c ∈ l) : c ∈ joinNl ls := by
  induction ls with
  | nil => cases hl
  | cons m t ih =>
      rcases List.mem_cons.mp hl with rfl | h2
      · cases t with
        | nil => exact hc
        | cons x t2 =>
            rw [joinNl_cons_ne _ _ (by simp)]
            exact List.mem_append.mpr (Or.inl hc)
      · cases t with
        | nil => cases h2
        | cons x t2 =>
            rw [joinNl_cons_ne _ _ (by simp)]
            exact List.mem_append.mpr (Or.inr (List.mem_cons.mpr (Or.inr (ih h2))))

/-- A member that fails the predicate survives dropWhile. -/
theorem mem_dropWhile_of_not (p : Char → Bool) (s : List Char) (c : Char)
    (hc : c ∈ s) (hp : p c = false) : c ∈ s.dropWhile p := by
  induction s with
  | nil => cases hc
  | cons a t ih =>
      rw [List.dropWhile_cons]
      split
      · rename_i ha
        rcases List.mem_cons.mp hc with rfl | h2
        · rw [hp] at ha
          cases ha
        · exact ih h2
      · exact hc

/-- A string containing a non-whitespace character does not strip to
empty. -/
theorem pyStrip_ne_nil (s : List Char) (c : Char) (hc : c ∈ s) (hp : pySpace c = false) :
    pyStrip s ≠ [] := by
  intro h
  unfold pyStrip at h
  rw [List.reverse_eq_nil_iff, List.dropWhile_eq_nil_iff] at h
  have h1 : c ∈ s.dropWhile pySpace := mem_dropWhile_of_not _ _ _ hc hp
  have h2 : c ∈ (s.dropWhile pySpace).reverse := List.mem_reverse.mpr h1
  have h3 := h c h2
  rw [hp] at h3
  cases h3

/-! Section: Lemmas about the blank-line joining convention -/

/-- The blank-line interleaving of nonempty blocks is nonempty. -/
theorem blankSep_ne_nil (bs : List (List (List Char))) (h0 : bs ≠ [])
    (hb : ∀ b ∈ bs, b ≠ []) : blankSep bs ≠ [] := by
  cases bs with
  | nil => cases h0 rfl
  | cons b t =>
      cases t with
      | nil => exact hb b (by simp)
      | cons b2 t2 =>
          show b ++ [] :: blankSep (b2 :: t2) ≠ []
          simp

/-- Every line of the blank-line interleaving is blank or comes from a
block. -/
theorem mem_blankSep (bs : List (List (List Char))) (x : List Char)
    (hx : x ∈ blankSep bs) : x = [] ∨ ∃ b ∈ bs, x ∈ b := by
  induction bs with
  | nil => cases hx
  | cons b t ih =>
      cases t with
      | nil => exact Or.inr ⟨b, by simp, hx⟩
      | cons b2 t2 =>
          rw [show blankSep (b :: b2 :: t2) = b ++ [] :: blankSep (b2 :: t2) from rfl] at hx
          rcases List.mem_append.mp hx with h1 | h1
          · exact Or.inr ⟨b, by simp, h1⟩
          · rcases List.mem_cons.mp h1 with rfl | h2
            · exact Or.inl rfl
            · rcases ih h2 with h3 | ⟨bb, hbb, hxb⟩
              · exact Or.inl h3
              · exact Or.inr ⟨bb, List.mem_cons.mpr (Or.inr hbb), hxb⟩

/-- Join of concatenated nonempty groups splits at the boundary. -/
theorem joinNl_append_ne (xs ys : List (List Char)) (hx : xs ≠ []) (hy : ys ≠ []) :
    joinNl (xs ++ ys) = joinNl xs ++ '\n' :: joinNl ys := by
  induction xs with
  | nil => cases hx rfl
  | cons l t ih =>
      cases t with
      | nil =>
          cases ys with
          | nil => cases hy rfl
          | cons m ms =>
              show joinNl (l :: m :: ms) = joinNl [l] ++ '\n' :: joinNl (m :: ms)
              rfl
      | cons x t2 =>
          show joinNl (l :: (x :: t2 ++ ys)) = joinNl (l :: x :: t2) ++ '\n' :: joinNl ys
          rw [joinNl_cons_ne l (x :: t2 ++ ys) (by simp),
            joinNl_cons_ne l (x :: t2) (by simp), ih (by simp)]
          simp [List.append_assoc]

/-- The blank-line join of contents equals the newline join of the
blank-line interleaving of the corresponding line blocks. -/
theorem joinNl2_eq_joinNl_blankSep (bs : List (List (List Char)))
    (hb : ∀ b ∈ bs, b ≠ []) :
    joinNl2 (bs.map joinNl) = joinNl (blankSep bs) := by
  induction bs with
  | nil => rfl
  | cons b t ih =>
      cases t with
      | nil => rfl
      | cons b2 t2 =>
          have hbs : blankSep (b2 :: t2) ≠ [] :=
            blankSep_ne_nil (b2 :: t2) (by simp)
              (fun x hx => hb x (List.mem_cons.mpr (Or.inr hx)))
          show joinNl2 (joinNl b :: joinNl b2 :: t2.map joinNl) =
            joinNl (b ++ [] :: blankSep (b2 :: t2))
          rw [show joinNl2 (joinNl b :: joinNl b2 :: t2.map joinNl) =
            joinNl b ++ '\n' :: '\n' :: joinNl2 (joinNl b2 :: t2.map joinNl) from rfl]
          rw [show (joinNl b2 :: t2.map joinNl) = (b2 :: t2).map joinNl from rfl]
          rw [ih (fun x hx => hb x (List.mem_cons.mpr (Or.inr hx)))]
          rw [joinNl_append_ne b ([] :: blankSep (b2 :: t2)) (hb b (by simp)) (by simp)]
          rw [joinNl_cons_ne [] _ hbs]
          rfl

/-! Section: Characterizing the parser against the specified segmentation -/

/-- The leading block computed by segSpecAux collects only input lines. -/
theorem segSpecAux_pre_mem (ls : List (List Char)) :
    ∀ x ∈ (segSpecAux ls).1, x ∈ ls := by
  induction ls with
  | nil => intro x hx; cases hx
  | cons l rest ih =>
      intro x hx
      by_cases ht : isTrig l = true
      · simp [segSpecAux, ht] at hx
      · simp only [segSpecAux, ht, if_false, Bool.false_eq_true] at hx
        rcases List.mem_cons.mp hx with rfl | h2
        · exact List.mem_cons_self x rest
        · exact List.mem_cons.mpr (Or.inr (ih x h2))

/-- Concatenating the leading block with the segments' lines recovers the
input lines exactly. -/
theorem segSpecAux_join (ls : List (List Char)) :
    (segSpecAux ls).1 ++ ((segSpecAux ls).2.map (fun p => p.2)).flatten = ls := by
  induction ls with
  | nil => rfl
  | cons l rest ih =>
      by_cases ht : isTrig l = true
      · simp only [segSpecAux, ht, if_true, List.map_cons, List.flatten_cons,
          List.nil_append, List.cons_append]
        rw [ih]
      · simp only [segSpecAux, ht, if_false, Bool.false_eq_true, List.cons_append]
        rw [ih]

/-- The specified segmentation yields exactly one segment per trigger
line. -/
theorem segmentSpec_length (ls : List (List Char)) :
    (segmentSpec ls).length = ls.countP (fun l => isTrig l) := by
  induction ls with
  | nil => rfl
  | cons l rest ih =>
      by_cases ht : isTrig l = true
      · simp [segmentSpec, segSpecAux, ht, List.countP_cons] at ih ⊢
        omega
      · simp [segmentSpec, segSpecAux, ht, List.countP_cons] at ih ⊢
        omega

/-- Each specified segment has nonempty lines drawn from the input. -/
theorem segmentSpec_mem (ls : List (List Char)) :
    ∀ p ∈ segmentSpec ls, p.2 ≠ [] ∧ ∀ x ∈ p.2, x ∈ ls := by
  induction ls with
  | nil => intro p hp; cases hp
  | cons l rest ih =>
      intro p hp
      by_cases ht : isTrig l = true
      · simp only [segmentSpec, segSpecAux, ht, if_true] at hp
        rcases List.mem_cons.mp hp with rfl | h2
        · refine ⟨by simp, ?_⟩
          intro x hx
          rcases List.mem_cons.mp hx with rfl | h3
          · exact List.mem_cons_self x rest
          · exact List.mem_cons.mpr (Or.inr (segSpecAux_pre_mem rest x h3))
        · obtain ⟨h3, h4⟩ := ih p h2
          exact ⟨h3, fun x hx => List.mem_cons.mpr (Or.inr (h4 x hx))⟩
      · simp only [segmentSpec, segSpecAux, ht, if_false, Bool.false_eq_true] at hp
        obtain ⟨h3, h4⟩ := ih p hp
        exact ⟨h3, fun x hx => List.mem_cons.mpr (Or.inr (h4 x hx))⟩

/-- The parser with an open truthy segment appends the remaining body to
it and then produces exactly the specified segments. -/
theorem parseLines_open (ls : List (List Char)) :
    ∀ (f : List Char) (cc : List (List Char)) (acc : List FileSegment),
      (∀ l ∈ ls, isTrig l = true → l.drop 6 ≠ []) → f ≠ [] → cc ≠ [] →
      parseLines ls (some f) cc acc =
        acc ++ mkSegment f (cc ++ (segSpecAux ls).1) ::
          ((segSpecAux ls).2.map (fun p => mkSegment p.1 p.2)) := by
  induction ls with
  | nil =>
      intro f cc acc hT hf hcc
      have hfb : f.isEmpty = false := by cases f with | nil => cases hf rfl | cons a t => rfl
      have hccb : cc.isEmpty = false := by cases cc with | nil => cases hcc rfl | cons a t => rfl
      simp [parseLines, segSpecAux, hfb, hccb]
  | cons l rest ih =>
      intro f cc acc hT hf hcc
      have hfb : f.isEmpty = false := by cases f with | nil => cases hf rfl | cons a t => rfl
      have hccb : cc.isEmpty = false := by cases cc with | nil => cases hcc rfl | cons a t => rfl
      have hT2 : ∀ x ∈ rest, isTrig x = true → x.drop 6 ≠ [] :=
        fun x hx => hT x (List.mem_cons.mpr (Or.inr hx))
      by_cases ht : isTrig l = true
      · have hl6 : l.drop 6 ≠ [] := hT l (List.mem_cons_self l rest) ht
        have hstep : parseLines (l :: rest) (some f) cc acc =
            parseLines rest (some (l.drop 6)) [l] (acc ++ [mkSegment f cc]) := by
          simp [parseLines, ht, hfb, hccb]
        rw [hstep, ih (l.drop 6) [l] (acc ++ [mkSegment f cc]) hT2 hl6 (by simp)]
        simp [segSpecAux, ht, List.append_assoc]
      · have hnt : isTrig l = false := by rwa [Bool.not_eq_true] at ht
        have hstep : parseLines (l :: rest) (some f) cc acc =
            parseLines rest (some f) (cc ++ [l]) acc := by
          simp [parseLines, hnt, hfb]
        rw [hstep, ih f (cc ++ [l]) acc hT2 hf (by simp)]
        simp [segSpecAux, hnt, List.append_assoc]

/-- When every trigger line carries a nonempty path, the parser from the
initial state produces exactly the specified segments, as `mkSegment`
records. -/
theorem parseLines_closed (ls : List (List Char)) :
    ∀ acc : List FileSegment,
      (∀ l ∈ ls, isTrig l = true → l.drop 6 ≠ []) →
      parseLines ls none [] acc =
        acc ++ (segmentSpec ls).map (fun p => mkSegment p.1 p.2) := by
  induction ls with
  | nil => intro acc hT; simp [parseLines, segmentSpec, segSpecAux]
  | cons l rest ih =>
      intro acc hT
      have hT2 : ∀ x ∈ rest, isTrig x = true → x.drop 6 ≠ [] :=
        fun x hx => hT x (List.mem_cons.mpr (Or.inr hx))
      by_cases ht : isTrig l = true
      · have hl6 : l.drop 6 ≠ [] := hT l (List.mem_cons_self l rest) ht
        have hstep : parseLines (l :: rest) none [] acc =
            parseLines rest (some (l.drop 6)) [l] acc := by
          simp [parseLines, ht]
        rw [hstep, parseLines_open rest (l.drop 6) [l] acc hT2 hl6 (by simp)]
        simp [segmentSpec, segSpecAux, ht]
      · have hnt : isTrig l = false := by rwa [Bool.not_eq_true] at ht
        have hstep : parseLines (l :: rest) none [] acc =
            parseLines rest none [] acc := by
          simp [parseLines, hnt]
        rw [hstep, ih acc hT2]
        simp [segmentSpec, segSpecAux, hnt]

/-- The parsed segments are exactly the specified ones, recorded through
`mkSegment`, whenever every trigger line has a nonempty path. -/
theorem parse_eq_segmentSpec (d : String)
    (hT : ∀ l ∈ splitNl d.data, isTrig l = true → l.drop 6 ≠ []) :
    parse_diff_by_files d =
      (segmentSpec (splitNl d.data)).map (fun p => mkSegment p.1 p.2) := by
  unfold parse_diff_by_files
  rw [parseLines_closed (splitNl d.data) [] hT]
  rfl

/-- Claim C4 (amended: restricted to inputs in which every line beginning
with `--- a/` carries a nonempty path): segmentation produces exactly one
segment per trigger line, in input order; each segment's filename is
everything after the 6-character prefix, its lines run from its trigger
line up to (not including) the next trigger or the end of input, lines
before the first trigger are discarded (no trigger line, zero segments),
and two triggers with the same filename yield two separate segments with
no merging or reordering, as the equality with `segmentSpec` records.  A
bare `--- a/` line with empty path opens no segment of its own — see the
counterexample. -/
theorem segmentation_per_trigger (d : String)
    (hT : ∀ l ∈ splitNl d.data, isTrig l = true → l.drop 6 ≠ []) :
    (parse_diff_by_files d).map (fun s => (s.filename, s.lines)) =
      segmentSpec (splitNl d.data) ∧
    (parse_diff_by_files d).length = (splitNl d.data).countP (fun l => isTrig l) := by
  have hp := parse_eq_segmentSpec d hT
  constructor
  · rw [hp, List.map_map]
    have hcomp : ((fun s : FileSegment => (s.filename, s.lines)) ∘
        fun p : List Char × List (List Char) => mkSegment p.1 p.2) =
        fun p : List Char × List (List Char) => (p.1, p.2) := rfl
    rw [hcomp]
    simp
  · rw [hp, List.length_map, segmentSpec_length]

/-- Witness for C4 on a diff with the same filename appearing twice. -/
theorem segmentation_per_trigger_witness :
    (parse_diff_by_files "--- a/f\n+x\n--- a/f\n-y").length =
      (splitNl ("--- a/f\n+x\n--- a/f\n-y").data).countP (fun l => isTrig l) ∧
    (parse_diff_by_files "--- a/f\n+x\n--- a/f\n-y").length = 2 :=
  ⟨(segmentation_per_trigger "--- a/f\n+x\n--- a/f\n-y" (by decide)).2, by decide⟩

/-- Every segment the parser ever emits is an `mkSegment` record, either
already accumulated or built from some filename and line list. -/
theorem parseLines_mk (ls : List (List Char)) :
    ∀ (cf : Option (List Char)) (cc : List (List Char)) (acc : List FileSegment),
      ∀ s ∈ parseLines ls cf cc acc,
        s ∈ acc ∨ ∃ f lines, s = mkSegment f lines := by
  induction ls with
  | nil =>
      intro cf cc acc s hs
      cases cf with
      | none => exact Or.inl hs
      | some f =>
          simp only [parseLines] at hs
          by_cases hcl : (!f.isEmpty && !cc.isEmpty) = true
          · rw [if_pos hcl] at hs
            rcases List.mem_append.mp hs with h1 | h1
            · exact Or.inl h1
            · rw [List.mem_singleton] at h1
              subst h1
              exact Or.inr ⟨f, cc, rfl⟩
          · rw [if_neg hcl] at hs
            exact Or.inl hs
  | cons l rest ih =>
      intro cf cc acc s hs
      cases cf with
      | none =>
          simp only [parseLines] at hs
          by_cases ht : isTrig l = true
          · rw [if_pos ht] at hs
            exact ih (some (l.drop 6)) (cc ++ [l]) acc s hs
          · rw [if_neg ht] at hs
            exact ih none cc acc s hs
      | some f =>
          simp only [parseLines] at hs
          by_cases ht : isTrig l = true
          · rw [if_pos ht] at hs
            by_cases hcl : (!f.isEmpty && !cc.isEmpty) = true
            · rw [if_pos hcl] at hs
              rcases ih (some (l.drop 6)) [l] (acc ++ [mkSegment f cc]) s hs with h1 | h1
              · rcases List.mem_append.mp h1 with h2 | h2
                · exact Or.inl h2
                · rw [List.mem_singleton] at h2
                  subst h2
                  exact Or.inr ⟨f, cc, rfl⟩
              · exact Or.inr h1
            · rw [if_neg hcl] at hs
              exact ih (some (l.drop 6)) (cc ++ [l]) acc s hs
          · rw [if_neg ht] at hs
            by_cases hfb : (!f.isEmpty) = true
            · rw [if_pos hfb] at hs
              exact ih (some f) (cc ++ [l]) acc s hs
            · rw [if_neg hfb] at hs
              exact ih (some f) cc acc s hs

/-- Claim C5: each parsed segment's additions field counts exactly its
lines that start with `+` but not with `+++`, its deletions field counts
exactly its lines that start with `-` but not with `---`, and both
counts are non-negative integers. -/
theorem segment_counts (d : String) (s : FileSegment)
    (hs : s ∈ parse_diff_by_files d) :
    s.additions = s.lines.countP
      (fun l => ['+'].isPrefixOf l && !(['+', '+', '+'].isPrefixOf l)) ∧
    s.deletions = s.lines.countP
      (fun l => ['-'].isPrefixOf l && !(['-', '-', '-'].isPrefixOf l)) ∧
    0 ≤ (s.additions : Int) ∧ 0 ≤ (s.deletions : Int) := by
  rcases parseLines_mk (splitNl d.data) none [] [] s hs with h1 | ⟨f, lines, rfl⟩
  · cases h1
  · exact ⟨rfl, rfl, Int.natCast_nonneg _, Int.natCast_nonneg _⟩

/-- Witness for C5 on a concrete three-hunk segment. -/
theorem segment_counts_witness :
    segWitness ∈ parse_diff_by_files "--- a/f.py\n+x\n-y\n+z" ∧
    segWitness.additions = 2 ∧ segWitness.deletions = 1 ∧
    segWitness.additions = segWitness.lines.countP
      (fun l => ['+'].isPrefixOf l && !(['+', '+', '+'].isPrefixOf l)) :=
  ⟨by decide, by decide, by decide,
    (segment_counts "--- a/f.py\n+x\n-y\n+z" segWitness (by decide)).1⟩

/-- Claim C6 (amended: restricted to inputs in which every line beginning
with `--- a/` carries a nonempty path): when the first line of the diff
is a trigger line and the configuration retains every parsed segment, the
filtered output's lines are exactly the segments' line blocks joined with
one blank separating line, and those blocks concatenated are exactly the
input's lines — no other line is added, removed or changed.  With an
empty-path trigger line the body after it is silently dropped — see the
counterexample. -/
theorem reconstruction (f : DiffFilter) (d : String)
    (hHead : isTrig ((splitNl d.data).headI) = true)
    (hT : ∀ l ∈ splitNl d.data, isTrig l = true → l.drop 6 ≠ [])
    (hRet : ∀ s ∈ parse_diff_by_files d, f.should_include_file_diff s = true) :
    splitNl ((f.filter_diff d).data) =
      blankSep ((parse_diff_by_files d).map (fun s => s.lines)) ∧
    ((parse_diff_by_files d).map (fun s => s.lines)).flatten = splitNl d.data := by
  obtain ⟨l0, rest, hls⟩ : ∃ l0 rest, splitNl d.data = l0 :: rest := by
    cases hsp : splitNl d.data with
    | nil => exact absurd hsp (splitNl_ne_nil d.data)
    | cons a b => exact ⟨a, b, rfl⟩
  have hl0 : isTrig l0 = true := by rw [hls] at hHead; exact hHead
  have hp := parse_eq_segmentSpec d hT
  have hblocks : (parse_diff_by_files d).map (fun s => s.lines) =
      (segmentSpec (splitNl d.data)).map (fun p => p.2) := by
    rw [hp, List.map_map]
    rfl
  have hflat : ((parse_diff_by_files d).map (fun s => s.lines)).flatten = splitNl d.data := by
    rw [hblocks]
    have hjoin := segSpecAux_join (splitNl d.data)
    have hpre : (segSpecAux (splitNl d.data)).1 = [] := by
      rw [hls]
      simp [segSpecAux, hl0]
    rw [hpre, List.nil_append] at hjoin
    exact hjoin
  refine ⟨?_, hflat⟩
  have hspecne : segmentSpec (splitNl d.data) ≠ [] := by
    rw [hls]
    simp [segmentSpec, segSpecAux, hl0]
  have hfilter : (parse_diff_by_files d).filter (fun s => f.should_include_file_diff s) =
      parse_diff_by_files d := List.filter_eq_self.mpr hRet
  have hdash0 : '-' ∈ l0 := by
    obtain ⟨t0, ht0⟩ := List.isPrefixOf_iff_prefix.mp hl0
    rw [← ht0]
    exact List.mem_append.mpr (Or.inl (by decide))
  have hdashd : '-' ∈ d.data := by
    rw [← joinNl_splitNl d.data]
    exact mem_joinNl _ l0 '-' (by rw [hls]; exact List.mem_cons_self l0 rest) hdash0
  have hstrip : ¬ pyStrip d.data = [] := pyStrip_ne_nil d.data '-' hdashd (by decide)
  have hout : f.filter_diff d = String.mk (joinNl2 (((parse_diff_by_files d).filter
      (fun s => f.should_include_file_diff s)).map (fun s => s.content))) := by
    show (if pyStrip d.data = [] then "" else _) = _
    rw [if_neg hstrip]
  rw [hout, hfilter]
  have hcont : (parse_diff_by_files d).map (fun s => s.content) =
      ((parse_diff_by_files d).map (fun s => s.lines)).map joinNl := by
    rw [hp, List.map_map, List.map_map, List.map_map]
    rfl
  show splitNl (joinNl2 ((parse_diff_by_files d).map (fun s => s.content))) = _
  rw [hcont]
  have hblockne : ∀ b ∈ (parse_diff_by_files d).map (fun s => s.lines), b ≠ [] := by
    intro b hb
    rw [hblocks] at hb
    obtain ⟨p, hpmem, hpe⟩ := List.mem_map.mp hb
    rw [← hpe]
    exact (segmentSpec_mem (splitNl d.data) p hpmem).1
  rw [joinNl2_eq_joinNl_blankSep _ hblockne]
  apply splitNl_joinNl
  · refine blankSep_ne_nil _ ?_ hblockne
    intro hmapnil
    rw [hblocks] at hmapnil
    exact hspecne (List.map_eq_nil_iff.mp hmapnil)
  · intro x hx
    rcases mem_blankSep _ x hx with rfl | ⟨b, hb, hxb⟩
    · simp
    · rw [hblocks] at hb
      obtain ⟨p, hpmem, hpe⟩ := List.mem_map.mp hb
      have hmem := (segmentSpec_mem (splitNl d.data) p hpmem).2
      rw [← hpe] at hxb
      exact mem_splitNl_no_nl d.data x (hmem x hxb)

/-- Witness for C6 on a two-file diff retained in full. -/
theorem reconstruction_witness :
    ((parse_diff_by_files "--- a/a\n+1\n--- a/b\n+2").map (fun s => s.lines)).flatten =
      splitNl ("--- a/a\n+1\n--- a/b\n+2").data :=
  (reconstruction dfDefault "--- a/a\n+1\n--- a/b\n+2"
    (by decide) (by decide) (by decide)).2

/-! Section: Well-formedness of parsed segments and re-parsing a single segment -/

/-- A trigger line with an empty path is exactly the bare prefix. -/
theorem trig_empty_path (l : List Char) (ht : isTrig l = true) (hd : l.drop 6 = []) :
    l = trigPrefix := by
  obtain ⟨t0, ht0⟩ := List.isPrefixOf_iff_prefix.mp ht
  have h6 : l.drop 6 = t0 := by
    rw [← ht0]
    exact List.drop_left trigPrefix t0
  rw [hd] at h6
  rw [← ht0, ← h6, List.append_nil]

/-- The parser state right after any trigger line is well formed. -/
theorem StWF_fresh (l : List Char) (ht : isTrig l = true) (hlnl : '\n' ∉ l) :
    StWF (some (l.drop 6)) [l] := by
  by_cases hd : l.drop 6 = []
  · have hltp : l = trigPrefix := trig_empty_path l ht hd
    subst hltp
    exact ⟨by simp, by simp⟩
  · simp only [StWF]
    rw [if_neg hd]
    exact ⟨[], l, [], rfl, by simp, ht, rfl, by simp, by simpa using hlnl⟩

/-- Every segment the parser emits from a well-formed state is well
formed. -/
theorem parseLines_wf (ls : List (List Char)) :
    ∀ (cf : Option (List Char)) (cc : List (List Char)) (acc : List FileSegment),
      (∀ l ∈ ls, '\n' ∉ l) → StWF cf cc → (∀ s ∈ acc, SegWF s) →
      ∀ s ∈ parseLines ls cf cc acc, SegWF s := by
  induction ls with
  | nil =>
      intro cf cc acc hnl hst hacc s hs
      cases cf with
      | none => exact hacc s hs
      | some f =>
          simp only [parseLines] at hs
          by_cases hcl : (!f.isEmpty && !cc.isEmpty) = true
          · rw [if_pos hcl] at hs
            rcases List.mem_append.mp hs with h1 | h1
            · exact hacc s h1
            · rw [List.mem_singleton] at h1
              subst h1
              have hfe : ¬ f = [] := by
                intro hfe2
                subst hfe2
                simp at hcl
              have hstS : ∃ junk trig body, cc = junk ++ trig :: body ∧
                  (∀ j ∈ junk, j = trigPrefix) ∧ isTrig trig = true ∧ trig.drop 6 = f ∧
                  (∀ b ∈ body, isTrig b = false) ∧ (∀ x ∈ cc, '\n' ∉ x) := by
                simpa [StWF, hfe] using hst
              obtain ⟨junk, trig, body, hcceq, hjunk, htrig, hdropf, hbody, hccnl⟩ := hstS
              exact ⟨junk, trig, body, hcceq, hjunk, htrig, hdropf, hfe, hbody,
                rfl, rfl, rfl, hccnl⟩
          · rw [if_neg hcl] at hs
            exact hacc s hs
  | cons l rest ih =>
      intro cf cc acc hnl hst hacc s hs
      have hnl2 : ∀ x ∈ rest, '\n' ∉ x := fun x hx => hnl x (List.mem_cons.mpr (Or.inr hx))
      have hlnl : '\n' ∉ l := hnl l (List.mem_cons_self l rest)
      cases cf with
      | none =>
          have hcc : cc = [] := hst
          subst hcc
          simp only [parseLines] at hs
          by_cases ht : isTrig l = true
          · rw [if_pos ht] at hs
            exact ih (some (l.drop 6)) ([] ++ [l]) acc hnl2 (by simpa using StWF_fresh l ht hlnl) hacc s hs
          · rw [if_neg ht] at hs
            exact ih none [] acc hnl2 rfl hacc s hs
      | some f =>
          simp only [parseLines] at hs
          by_cases hfe : f = []
          · subst hfe
            have hst2 : cc ≠ [] ∧ ∀ j ∈ cc, j = trigPrefix := by
              simpa [StWF] using hst
            by_cases ht : isTrig l = true
            · rw [if_pos ht] at hs
              simp only [List.isEmpty_nil, Bool.not_true, Bool.false_and,
                Bool.false_eq_true, if_false] at hs
              refine ih (some (l.drop 6)) (cc ++ [l]) acc hnl2 ?_ hacc s hs
              by_cases hd : l.drop 6 = []
              · have hltp : l = trigPrefix := trig_empty_path l ht hd
                subst hltp
                rw [hd]
                refine ⟨by simp, ?_⟩
                intro j hj
                rcases List.mem_append.mp hj with h1 | h1
                · exact hst2.2 j h1
                · rw [List.mem_singleton] at h1
                  exact h1
              · simp only [StWF]
                rw [if_neg hd]
                refine ⟨cc, l, [], by simp, hst2.2, ht, rfl, by simp, ?_⟩
                intro x hx
                rcases List.mem_append.mp hx with h1 | h1
                · rw [hst2.2 x h1]
                  decide
                · rw [List.mem_singleton] at h1
                  subst h1
                  exact hlnl
            · rw [if_neg ht] at hs
              simp only [List.isEmpty_nil, Bool.not_true, Bool.false_eq_true, if_false] at hs
              exact ih (some []) cc acc hnl2 hst hacc s hs
          · have hfb : f.isEmpty = false := by
              cases f with | nil => cases hfe rfl | cons a t => rfl
            have hstS : ∃ junk trig body, cc = junk ++ trig :: body ∧
                (∀ j ∈ junk, j = trigPrefix) ∧ isTrig trig = true ∧ trig.drop 6 = f ∧
                (∀ b ∈ body, isTrig b = false) ∧ (∀ x ∈ cc, '\n' ∉ x) := by
              simpa [StWF, hfe] using hst
            obtain ⟨junk, trig, body, hcceq, hjunk, htrig, hdropf, hbody, hccnl⟩ := hstS
            have hccne : cc ≠ [] := by rw [hcceq]; simp
            have hccb : cc.isEmpty = false := by
              cases cc with | nil => cases hccne rfl | cons a t => rfl
            by_cases ht : isTrig l = true
            · rw [if_pos ht] at hs
              rw [if_pos (by simp [hfb, hccb])] at hs
              refine ih (some (l.drop 6)) [l] (acc ++ [mkSegment f cc]) hnl2
                (StWF_fresh l ht hlnl) ?_ s hs
              intro s2 hs2
              rcases List.mem_append.mp hs2 with h1 | h1
              · exact hacc s2 h1
              · rw [List.mem_singleton] at h1
                subst h1
                exact ⟨junk, trig, body, hcceq, hjunk, htrig, hdropf, hfe, hbody,
                  rfl, rfl, rfl, hccnl⟩
            · rw [if_neg ht] at hs
              rw [if_pos (by simp [hfb])] at hs
              refine ih (some f) (cc ++ [l]) acc hnl2 ?_ hacc s hs
              simp only [StWF]
              rw [if_neg hfe]
              refine ⟨junk, trig, body ++ [l], by rw [hcceq]; simp, hjunk, htrig, hdropf, ?_, ?_⟩
              · intro b hb
                rcases List.mem_append.mp hb with h1 | h1
                · exact hbody b h1
                · rw [List.mem_singleton] at h1
                  subst h1
                  rwa [Bool.not_eq_true] at ht
              · intro x hx
                rcases List.mem_append.mp hx with h1 | h1
                · exact hccnl x h1
                · rw [List.mem_singleton] at h1
                  subst h1
                  exact hlnl

/-- Every parsed segment of any diff is well formed. -/
theorem parse_wf (d : String) : ∀ s ∈ parse_diff_by_files d, SegWF s :=
  parseLines_wf (splitNl d.data) none [] [] (mem_splitNl_no_nl d.data) rfl
    (fun s h => absurd h (List.not_mem_nil s))

/-- Lines with no trigger form a pure leading block with no segments. -/
theorem segSpecAux_no_trig (ls : List (List Char)) (h : ∀ b ∈ ls, isTrig b = false) :
    segSpecAux ls = (ls, []) := by
  induction ls with
  | nil => rfl
  | cons l rest ih =>
      have hl : isTrig l = false := h l (List.mem_cons_self l rest)
      simp only [segSpecAux, hl, Bool.false_eq_true, if_false]
      rw [ih (fun b hb => h b (List.mem_cons.mpr (Or.inr hb)))]

/-- Stray bare `--- a/` lines are consumed into the collected lines while
the current filename stays empty. -/
theorem parseLines_junk (junk : List (List Char)) :
    ∀ (rest : List (List Char)) (cc : List (List Char)) (acc : List FileSegment),
      (∀ j ∈ junk, j = trigPrefix) →
      parseLines (junk ++ rest) (some []) cc acc =
        parseLines rest (some []) (cc ++ junk) acc := by
  induction junk with
  | nil =>
      intro rest cc acc hj
      simp
  | cons j t ih =>
      intro rest cc acc hj
      have hjt : j = trigPrefix := hj j (List.mem_cons_self j t)
      subst hjt
      have hstep : parseLines ((trigPrefix :: t) ++ rest) (some []) cc acc =
          parseLines (t ++ rest) (some []) (cc ++ [trigPrefix]) acc := rfl
      rw [hstep, ih rest (cc ++ [trigPrefix]) acc
        (fun x hx => hj x (List.mem_cons.mpr (Or.inr hx)))]
      rw [List.append_assoc]
      rfl

/-- Re-parsing the lines of a well-formed segment reproduces exactly that
segment. -/
theorem parse_single (s : FileSegment) (h : SegWF s) :
    parseLines s.lines none [] [] = [s] := by
  obtain ⟨junk, trig, body, hlines, hjunk, htrig, hdrop, hfne, hbody, hcontent,
    hadd, hdel, hnl⟩ := h
  have hTbody : ∀ b ∈ body, isTrig b = true → b.drop 6 ≠ [] := by
    intro b hb hbt
    rw [hbody b hb] at hbt
    cases hbt
  have hmk : mkSegment s.filename s.lines = s := by
    conv_rhs => rw [show s = FileSegment.mk s.filename s.lines s.content s.additions
      s.deletions from rfl]
    rw [hcontent, hadd, hdel]
    rfl
  cases junk with
  | nil =>
      rw [List.nil_append] at hlines
      rw [hlines]
      have hstep : parseLines (trig :: body) none [] [] =
          parseLines body (some (trig.drop 6)) [trig] [] := by
        simp [parseLines, htrig]
      rw [hstep, hdrop]
      rw [parseLines_open body s.filename [trig] [] hTbody hfne (by simp)]
      rw [segSpecAux_no_trig body hbody]
      simp only [List.nil_append, List.map_nil, List.singleton_append]
      rw [← hlines, hmk]
  | cons j jt =>
      have hj0 : j = trigPrefix := hjunk j (List.mem_cons_self j jt)
      subst hj0
      rw [hlines]
      have hstep1 : parseLines ((trigPrefix :: jt) ++ trig :: body) none [] [] =
          parseLines (jt ++ trig :: body) (some []) [trigPrefix] [] := rfl
      rw [hstep1]
      rw [parseLines_junk jt (trig :: body) [trigPrefix] []
        (fun x hx => hjunk x (List.mem_cons.mpr (Or.inr hx)))]
      have hstep2 : parseLines (trig :: body) (some []) ([trigPrefix] ++ jt) [] =
          parseLines body (some (trig.drop 6)) (([trigPrefix] ++ jt) ++ [trig]) [] := by
        simp [parseLines, htrig]
      rw [hstep2, hdrop]
      rw [parseLines_open body s.filename (([trigPrefix] ++ jt) ++ [trig]) [] hTbody hfne
        (by simp)]
      rw [segSpecAux_no_trig body hbody]
      simp only [List.nil_append, List.map_nil]
      have hassoc : (([trigPrefix] ++ jt) ++ [trig]) ++ body =
          (trigPrefix :: jt) ++ trig :: body := by simp
      rw [hassoc, ← hlines, hmk]

/-- Claim C2 (amended: when the configuration retains at most one
segment): filtering an already-filtered diff again with the same
configuration yields the identical string.  With two or more retained
segments re-filtering is NOT idempotent — the second pass absorbs each
separating blank line into the preceding segment and emits a fresh
separator, so blank lines accumulate (see the counterexample). -/
theorem refilter_idempotent_le_one (f : DiffFilter) (d : String)
    (h : ((parse_diff_by_files d).filter
      (fun s => f.should_include_file_diff s)).length ≤ 1) :
    f.filter_diff (f.filter_diff d) = f.filter_diff d := by
  by_cases hstrip : pyStrip d.data = []
  · have h1 : f.filter_diff d = "" := by
      show (if pyStrip d.data = [] then "" else _) = ""
      rw [if_pos hstrip]
    rw [h1]
    rfl
  · have hout : f.filter_diff d = String.mk (joinNl2 (((parse_diff_by_files d).filter
        (fun s => f.should_include_file_diff s)).map (fun s => s.content))) := by
      show (if pyStrip d.data = [] then "" else _) = _
      rw [if_neg hstrip]
    cases hRname : (parse_diff_by_files d).filter (fun s => f.should_include_file_diff s) with
    | nil =>
        rw [hout, hRname]
        rfl
    | cons s0 t =>
        cases t with
        | cons s1 t2 =>
            rw [hRname] at h
            simp at h
        | nil =>
            have hs0R : s0 ∈ (parse_diff_by_files d).filter
                (fun s => f.should_include_file_diff s) := by
              rw [hRname]
              exact List.mem_singleton.mpr rfl
            have hs0 : s0 ∈ parse_diff_by_files d := List.mem_of_mem_filter hs0R
            have hs0p : f.should_include_file_diff s0 = true := List.of_mem_filter hs0R
            have hwf : SegWF s0 := parse_wf d s0 hs0
            obtain ⟨junk, trig, body, hlines, hjunk, htrig, hdrop, hfne, hbody,
              hcontent, hadd, hdel, hnl⟩ := hwf
            rw [hout, hRname]
            simp only [List.map_cons, List.map_nil]
            have hj2 : joinNl2 [s0.content] = s0.content := rfl
            rw [hj2]
            have hdashmem : '-' ∈ s0.content := by
              rw [hcontent]
              refine mem_joinNl s0.lines trig '-' ?_ ?_
              · rw [hlines]
                exact List.mem_append.mpr (Or.inr (List.mem_cons_self trig body))
              · obtain ⟨t0, ht0⟩ := List.isPrefixOf_iff_prefix.mp htrig
                rw [← ht0]
                exact List.mem_append.mpr (Or.inl (by decide))
            have hstrip2 : ¬ pyStrip (String.mk s0.content).data = [] :=
              pyStrip_ne_nil s0.content '-' hdashmem (by decide)
            have hout2 : f.filter_diff (String.mk s0.content) =
                String.mk (joinNl2 (((parse_diff_by_files (String.mk s0.content)).filter
                  (fun s => f.should_include_file_diff s)).map (fun s => s.content))) := by
              show (if pyStrip (String.mk s0.content).data = [] then "" else _) = _
              rw [if_neg hstrip2]
            have hparse2 : parse_diff_by_files (String.mk s0.content) = [s0] := by
              show parseLines (splitNl s0.content) none [] [] = [s0]
              have hsplit : splitNl s0.content = s0.lines := by
                rw [hcontent]
                refine splitNl_joinNl s0.lines ?_ hnl
                rw [hlines]
                simp
              rw [hsplit]
              exact parse_single s0 ⟨junk, trig, body, hlines, hjunk, htrig, hdrop,
                hfne, hbody, hcontent, hadd, hdel, hnl⟩
            rw [hout2, hparse2]
            simp [List.filter_cons, hs0p]
            rfl

/-- Witness for the amended C2 at a single-segment diff. -/
theorem refilter_idempotent_le_one_witness :
    dfDefault.filter_diff (dfDefault.filter_diff "--- a/only.py\n+x") =
      dfDefault.filter_diff "--- a/only.py\n+x" :=
  refilter_idempotent_le_one dfDefault "--- a/only.py\n+x" (by decide)
